import Mathlib

set_option maxRecDepth 100000

namespace ClassicsRetold

/-! Shallow embedding of the text segmentation and translation pipeline of the
`classics-retold` repository.  Strings are modelled as `List Char`; the
JavaScript string operations used by the scripts (regexp character classes,
`trim`, `split` with a captured delimiter, truthiness of strings) are embedded
explicitly below. -/

abbrev Str := List Char

/-- Characters matched by the JavaScript regexp class `\s` (also the set
removed by `String.prototype.trim`). -/
def isJsSpace (c : Char) : Bool :=
  c = ' ' || c = '\t' || c = '\n' || c = '\r' || c = Char.ofNat 11 || c = Char.ofNat 12 ||
  c = Char.ofNat 0xa0 || c = Char.ofNat 0x1680 ||
  (decide (0x2000 ≤ c.toNat) && decide (c.toNat ≤ 0x200a)) ||
  c = Char.ofNat 0x2028 || c = Char.ofNat 0x2029 || c = Char.ofNat 0x202f ||
  c = Char.ofNat 0x205f || c = Char.ofNat 0x3000 || c = Char.ofNat 0xfeff

/-- The character-for-character replacements performed by `normalizeText`:
smart single quotes to `'`, smart double quotes to `"`, em/en dashes to `-`. -/
def normChar (c : Char) : Char :=
  if c = Char.ofNat 0x2018 || c = Char.ofNat 0x2019 then Char.ofNat 39
  else if c = Char.ofNat 0x201c || c = Char.ofNat 0x201d then '"'
  else if c = Char.ofNat 0x2013 || c = Char.ofNat 0x2014 then '-'
  else c

/-- `replace(/\s+/g, ' ')`: every maximal run of whitespace becomes a single
space.  The flag records whether the previous character was whitespace. -/
def collapseWS : Str → Bool → Str
  | [], _ => []
  | c :: cs, prevSpace =>
    if isJsSpace c then
      (if prevSpace then [] else [' ']) ++ collapseWS cs true
    else c :: collapseWS cs false

/-- Left half of `String.prototype.trim`. -/
def trimLeft (l : Str) : Str := l.dropWhile isJsSpace

/-- `String.prototype.trim`. -/
def trimStr (l : Str) : Str := ((trimLeft l).reverse.dropWhile isJsSpace).reverse

/-- `normalizeText` from `scripts/sentence-segmenter.js`. -/
def normalizeText (text : Str) : Str := trimStr (collapseWS (text.map normChar) false)

/-- Sentence-terminator characters `[.!?]`. -/
def isPunctTerm (c : Char) : Bool := c = '.' || c = '!' || c = '?'

/-- The character class `[\s"'”’]` that may follow a terminator run. -/
def isTrailChar (c : Char) : Bool :=
  isJsSpace c || c = '"' || c = Char.ofNat 39 || c = Char.ofNat 0x201d || c = Char.ofNat 0x2019

/-- Match of the split regexp `([.!?]+[\s"'”’]|[.!?]+$)` at the head
of `l`: a maximal terminator run followed by one trailing character, or a
terminator run reaching the end of the string.  Returns the matched delimiter
and the remaining input. -/
def matchDelim (l : Str) : Option (Str × Str) :=
  let run := l.takeWhile isPunctTerm
  if run.isEmpty then none
  else
    match l.drop run.length with
    | [] => some (run, [])
    | c :: rest => if isTrailChar c then some (run ++ [c], rest) else none

/-- `String.prototype.split` with the captured delimiter regexp: scans left to
right, emitting the chunk before each delimiter match, the delimiter itself,
and finally the chunk after the last match.  Structural recursion on fuel;
`splitParts` supplies enough fuel for the whole input. -/
def splitGo : Nat → Str → Str → List Str
  | 0, l, acc => [acc.reverse ++ l]
  | _ + 1, [], acc => [acc.reverse]
  | fuel + 1, c :: cs, acc =>
    match matchDelim (c :: cs) with
    | some (d, rest) => acc.reverse :: d :: splitGo fuel rest []
    | none => splitGo fuel cs (c :: acc)

def splitParts (l : Str) : List Str := splitGo l.length l []

/-- The test `/^[.!?]+[\s"'”’]?$/` applied to a part. -/
def isDelimiterPart (p : Str) : Bool :=
  let run := p.takeWhile isPunctTerm
  !run.isEmpty &&
    (match p.drop run.length with
     | [] => true
     | [c] => isTrailChar c
     | _ => false)

/-- The fixed abbreviation list of `scripts/sentence-segmenter.js`. -/
def ABBREVIATIONS : List Str :=
  ["Mr", "Mrs", "Ms", "Dr", "Prof", "Sr", "Jr", "St", "Rev",
   "Hon", "Lt", "Col", "Gen", "Capt", "Sgt", "Corp",
   "etc", "vs", "vol", "no", "chap", "ch", "fig", "p", "pp",
   "viz", "i.e", "e.g", "cf", "et al",
   "Jan", "Feb", "Mar", "Apr", "May", "Jun", "Jul", "Aug", "Sep", "Oct", "Nov",
   "Dec"].map String.data

/-- ASCII lower-casing, as the `i` regexp flag behaves on the characters that
occur here. -/
def lowerChar (c : Char) : Char :=
  if 'A' ≤ c ∧ c ≤ 'Z' then Char.ofNat (c.toNat + 32) else c

/-- Word characters for the regexp word-boundary `\b`. -/
def isWordChar (c : Char) : Bool :=
  ('a' ≤ c && c ≤ 'z') || ('A' ≤ c && c ≤ 'Z') || ('0' ≤ c && c ≤ '9') || c = '_'

/-- Case-insensitive suffix test. -/
def endsWithCI (target buf : Str) : Bool :=
  let bl := buf.map lowerChar
  let tl := target.map lowerChar
  if tl.length ≤ bl.length then bl.drop (bl.length - tl.length) == tl else false

/-- The abbreviation check `new RegExp(`\\b(${ABBREV_PATTERN})\\.$`, 'i')`:
the buffer ends (case-insensitively) with an abbreviation followed by a
period, at a word boundary. -/
def endsAbbrev (buf : Str) : Bool :=
  ABBREVIATIONS.any fun abbr =>
    let target := abbr ++ ['.']
    endsWithCI target buf &&
      (match (buf.take (buf.length - target.length)).getLast? with
       | none => true
       | some c => !isWordChar c)

/-- A sentence record `{sid, text, start, end}` as produced by the segmenter
(`end` is a Lean keyword, hence `endPos`). -/
structure SentenceRec where
  sid : String
  text : Str
  start : Nat
  endPos : Nat
deriving DecidableEq

/-- The mutable loop state of `segmentParagraph`. -/
structure SegState where
  sentences : List SentenceRec
  currentPos : Nat
  sentenceBuffer : Str
  sentenceStart : Nat
  sentenceIndex : Nat
deriving DecidableEq

def mkSid (pid : String) (n : Nat) : String := pid ++ "_s" ++ toString n

/-- One iteration of the `for` loop of `segmentParagraph` over a part. -/
def segStep (pid : String) (st : SegState) (part : Str) : SegState :=
  if part.isEmpty then st
  else if isDelimiterPart part then
    let buf := st.sentenceBuffer ++ trimStr part
    if endsAbbrev buf then
      { st with sentenceBuffer := buf, currentPos := st.currentPos + part.length }
    else
      let stext := trimStr buf
      if stext.length > 0 then
        { sentences := st.sentences ++
            [⟨mkSid pid (st.sentenceIndex + 1), stext, st.sentenceStart,
              st.sentenceStart + stext.length⟩],
          currentPos := st.currentPos + part.length,
          sentenceBuffer := [],
          sentenceStart := st.currentPos + part.length,
          sentenceIndex := st.sentenceIndex + 1 }
      else
        { st with sentenceBuffer := buf, currentPos := st.currentPos + part.length }
  else
    { st with sentenceBuffer := st.sentenceBuffer ++ part,
              currentPos := st.currentPos + part.length }

/-- `segmentParagraph` from `scripts/sentence-segmenter.js`. -/
def segmentParagraph (paragraphText : Str) (paragraphId : String) : List SentenceRec :=
  let normalized := normalizeText paragraphText
  let parts := splitParts normalized
  let st := parts.foldl (segStep paragraphId) ⟨[], 0, [], 0, 0⟩
  let remaining := trimStr st.sentenceBuffer
  if remaining.length > 0 then
    st.sentences ++
      [⟨mkSid paragraphId (st.sentenceIndex + 1), remaining, st.sentenceStart,
        st.sentenceStart + remaining.length⟩]
  else st.sentences

/-! ## Translation layer (`src/utils/text-utils.js`) -/

/-- A translation unit `{sid, sentence, context, ...}`; the context and book
fields do not influence the orchestrator's result map and are omitted. -/
structure TUnit where
  sid : String
  sentence : Str
deriving DecidableEq

/-- The JS object read `obj[key]` on a string-valued record, as a first-match
association lookup. -/
def assocLookup (m : List (String × Str)) (k : String) : Option Str :=
  (m.find? (fun p => p.1 == k)).map Prod.snd

/-- JS truthiness of an optional string: `undefined` and `""` are falsy. -/
def jsTruthy (v : Option Str) : Option Str :=
  match v with
  | some v => if v.isEmpty then none else some v
  | none => none

def natToStr (n : Nat) : Str := (toString n).data

/-- The per-index fallback `[Translation failed for index ${idx}]` (note:
`idx` is the 0-based loop index). -/
def failIndexSentinel (idx : Nat) : Str :=
  "[Translation failed for index ".data ++ natToStr idx ++ [']']

/-- The per-unit sentinel `[Translation failed: ${error.message}]`. -/
def failMsgSentinel (msg : Str) : Str :=
  "[Translation failed: ".data ++ msg ++ [']']

/-- The result-mapping phase of `translateBatchGroup`: unit at 0-based index
`idx` receives `parsed[(idx+1).toString()] || failIndexSentinel idx`. -/
def mapTranslations (batch : List TUnit) (parsed : List (String × Str)) :
    List (String × Str) :=
  batch.enum.map fun p =>
    (p.2.sid,
      match jsTruthy (assocLookup parsed (toString (p.1 + 1))) with
      | some v => v
      | none => failIndexSentinel p.1)

/-- Consecutive groups of `bs` elements (the batching loop of
`translateBatch`); fueled structural recursion. -/
def chunkGo : Nat → Nat → List α → List (List α)
  | _, _, [] => []
  | 0, _, l => [l]
  | fuel + 1, bs, l => l.take bs :: chunkGo fuel bs (l.drop bs)

def chunkList (bs : Nat) (l : List α) : List (List α) := chunkGo l.length bs l

/-- Outcome of one batch group after its retries: a parsed JSON object, or the
error message of the exception that exhausted the retries. -/
abbrev GroupOutcome := Except Str (List (String × Str))

/-- The entries one batch group contributes to the aggregate map: its
`mapTranslations` result on success, or — when the group failed after its
retries — the per-unit failure sentinel entries written by the `catch`
handler of `translateBatch`. -/
def groupResult (outcomes : Nat → GroupOutcome) (gp : Nat × List TUnit) :
    List (String × Str) :=
  match outcomes gp.1 with
  | Except.ok parsed => mapTranslations gp.2 parsed
  | Except.error msg => gp.2.map (fun u => (u.sid, failMsgSentinel msg))

/-- The aggregate map built by `translateBatch`: each group merges its entries
(`Object.assign` on success, the `catch` handler's sentinels on failure; the
rethrown error is swallowed by `Promise.allSettled`).  `outcomes` abstracts
the external service: the settled outcome of each group, indexed in input
order (the `maxParallel` wave width affects timing only, not which outcome a
group has). -/
def translateBatch (units : List TUnit) (batchSize : Nat)
    (outcomes : Nat → GroupOutcome) : List (String × Str) :=
  (chunkList batchSize units).enum.foldl
    (fun acc gp => acc ++ groupResult outcomes gp) []

/-- `filterCachedSentences`: keeps the units whose cache read is falsy. -/
def filterCachedSentences (sentences : List TUnit) (cache : List (String × Str)) :
    List TUnit :=
  sentences.filter fun item => (jsTruthy (assocLookup cache item.sid)).isNone

/-- `Object.assign`-style cache update `translationCache[sid] = translations[sid]`:
new entries shadow old ones under `assocLookup`. -/
def mergeCache (cache translations : List (String × Str)) : List (String × Str) :=
  translations ++ cache

structure RunResult where
  output : List (String × Str)
  externalCalls : Nat
  cacheAfter : List (String × Str)
deriving DecidableEq

/-- One run of the cached translation pipeline (`scripts/generate-retellings.js`
orchestrating the `text-utils.js` functions): filter out cached units, batch
translate the rest, merge the results into the cache, and emit per-unit output
text — the fresh translation when the unit was translated this run, else the
truthy cached value, else the `[Translating...]` placeholder.  `externalCalls`
counts the batch API calls issued. -/
def runPipeline (units : List TUnit) (cache : List (String × Str)) (batchSize : Nat)
    (outcomes : Nat → GroupOutcome) : RunResult :=
  let toTranslate := filterCachedSentences units cache
  let translations := translateBatch toTranslate batchSize outcomes
  { output := units.map fun u =>
      match assocLookup translations u.sid with
      | some v => (u.sid, v)
      | none =>
        (u.sid,
          match jsTruthy (assocLookup cache u.sid) with
          | some v => v
          | none => "[Translating...]".data),
    externalCalls := (chunkList batchSize toTranslate).length,
    cacheAfter := mergeCache cache translations }

/-! ## Response parsing (`translateBatchGroup`) -/

def lbraceChar : Char := Char.ofNat 123

def rbraceChar : Char := Char.ofNat 125

def jsonWsChar (c : Char) : Bool := c = ' ' || c = '\t' || c = '\n' || c = '\r'

def skipWs (l : Str) : Str := l.dropWhile jsonWsChar

/-- Body of a JSON string literal (escape sequences are outside this model and
make the parse fail). -/
def parseJStringGo : Str → Str → Option (String × Str)
  | [], _ => none
  | c :: rest, acc =>
    if c = '"' then some (String.mk acc.reverse, rest)
    else if c = '\\' then none
    else parseJStringGo rest (c :: acc)

def parseJString (l : Str) : Option (String × Str) :=
  match l with
  | c :: rest => if c = '"' then parseJStringGo rest [] else none
  | [] => none

/-- Members of a flat JSON object of string keys and string values, starting
after the opening brace; consumes the closing brace. -/
def parseMembers : Nat → Str → List (String × Str) → Option (List (String × Str) × Str)
  | 0, _, _ => none
  | fuel + 1, l, acc =>
    match parseJString (skipWs l) with
    | none => none
    | some (k, r1) =>
      match skipWs r1 with
      | c :: r2 =>
        if c = ':' then
          match parseJString (skipWs r2) with
          | none => none
          | some (v, r3) =>
            match skipWs r3 with
            | c2 :: r4 =>
              if c2 = ',' then parseMembers fuel r4 (acc ++ [(k, v.data)])
              else if c2 = rbraceChar then some (acc ++ [(k, v.data)], r4)
              else none
            | [] => none
        else none
      | [] => none

/-- `JSON.parse`, modelled for flat objects of string keys and string values
(the shape the batch prompt requests); anything else fails.  Strict: the whole
input must be consumed up to trailing whitespace. -/
def strictJsonParse (l : Str) : Option (List (String × Str)) :=
  match skipWs l with
  | c :: rest =>
    if c = lbraceChar then
      match skipWs rest with
      | c2 :: r2 =>
        if c2 = rbraceChar then (if (skipWs r2).isEmpty then some [] else none)
        else
          match parseMembers (rest.length + 1) rest [] with
          | some (obj, r3) => if (skipWs r3).isEmpty then some obj else none
          | none => none
      | [] => none
    else none
  | [] => none

/-- The fallback extraction `content.match(/\{[\s\S]*\}/)`: the greedy match
runs from the first `\x7b` of the response to the last `\x7d`. -/
def extractBraces (l : Str) : Option Str :=
  let fromFirst := l.dropWhile (fun c => !(c = lbraceChar))
  let upToLast := (fromFirst.reverse.dropWhile (fun c => !(c = rbraceChar))).reverse
  if upToLast.isEmpty then none else some upToLast

/-- The two-stage parse of one model response inside `translateBatchGroup`:
strict parse, then parse of the regexp-extracted substring; `none` means the
attempt throws and counts as a failed batch call. -/
def parseAttempt (content : Str) : Option (List (String × Str)) :=
  match strictJsonParse content with
  | some o => some o
  | none =>
    match extractBraces content with
    | some s => strictJsonParse s
    | none => none

/-- Modelled from the spec: the first balanced `\x7b...\x7d` substring of the
response (scan from the first opening brace, tracking nesting depth).  Stated
only to compare the spec's description of the fallback with `extractBraces`. -/
def balancedGo : Str → Nat → Str → Option Str
  | [], _, _ => none
  | c :: rest, depth, acc =>
    if c = lbraceChar then balancedGo rest (depth + 1) (c :: acc)
    else if c = rbraceChar then
      if depth = 1 then some (c :: acc).reverse
      else if depth = 0 then none
      else balancedGo rest (depth - 1) (c :: acc)
    else balancedGo rest depth (c :: acc)

def extractBalanced (l : Str) : Option Str :=
  balancedGo (l.dropWhile (fun c => !(c = lbraceChar))) 0 []

/-- Modelled from the spec: the parse flow as the spec describes it — strict
parse, then parse of the first balanced brace substring. -/
def parseAttemptSpec (content : Str) : Option (List (String × Str)) :=
  match strictJsonParse content with
  | some o => some o
  | none =>
    match extractBalanced content with
    | some s => strictJsonParse s
    | none => none

/-- The retry loop of `translateBatchGroup` over the successive attempt
responses: the first response whose parse succeeds wins; if every attempt
fails the group call fails (the last error propagates to the caller). -/
def firstParsed : List Str → Option (List (String × Str))
  | [] => none
  | a :: rest =>
    match parseAttempt a with
    | some o => some o
    | none => firstParsed rest

/-! ## Cost estimation (`estimateCost`) -/

structure CostEstimate where
  sentenceCount : Nat
  estimatedInputTokens : Nat
  estimatedOutputTokens : Nat
  estimatedInputCost : String
  estimatedOutputCost : String
  estimatedTotalCost : String
deriving DecidableEq

def pad4 (k : Nat) : String :=
  let s := toString k
  String.mk (List.replicate (4 - s.length) '0') ++ s

/-- The configured prices, $0.10 and $0.30 per 1M tokens, expressed in
centi-dollars so the cost arithmetic is exact: a cost of
`tokens/1e6 × price` dollars equals `tokens × priceCenti / 1e8` dollars. -/
def priceInCenti : Nat := 10

def priceOutCenti : Nat := 30

/-- `Number.prototype.toFixed(4)` applied to the exact value `k / 1e8`
dollars: round to the nearest multiple of 1/10000 (ties up) and render with
four digits after the point. -/
def toFixed4ofE8 (k : Nat) : String :=
  let m := (k + 5000) / 10000
  toString (m / 10000) ++ "." ++ pad4 (m % 10000)

/-- `estimateCost` from `text-utils.js`, with the dollar amounts carried as
exact multiples of 1e-8 dollars (`cost·1e8` is an integer for these prices). -/
def estimateCost (sentenceCount : Nat) (avgContextLength : Nat) : CostEstimate :=
  let avgInputTokens := (avgContextLength + 3) / 4
  let avgOutputTokens := 100
  let totalInputTokens := sentenceCount * avgInputTokens
  let totalOutputTokens := sentenceCount * avgOutputTokens
  let inputCostE8 := totalInputTokens * priceInCenti
  let outputCostE8 := totalOutputTokens * priceOutCenti
  { sentenceCount := sentenceCount,
    estimatedInputTokens := totalInputTokens,
    estimatedOutputTokens := totalOutputTokens,
    estimatedInputCost := toFixed4ofE8 inputCostE8,
    estimatedOutputCost := toFixed4ofE8 outputCostE8,
    estimatedTotalCost := toFixed4ofE8 (inputCostE8 + outputCostE8) }

/-! ## Applying translations (`applyTranslations` in the preprocessing script) -/

/-- `translations[sentence.sid] || sentence.text`. -/
def modernLookup (translations : List (String × Str)) (s : SentenceRec) : Str :=
  match jsTruthy (assocLookup translations s.sid) with
  | some v => v
  | none => s.text

structure ModernState where
  recs : List SentenceRec
  modernText : Str
deriving DecidableEq

/-- One iteration of the modern-sentence loop of `applyTranslations`: the
record is pushed with offsets taken from the accumulated `modernText` length
before the separator is appended. -/
def modernStep (translations : List (String × Str)) (st : ModernState)
    (s : SentenceRec) : ModernState :=
  let m := modernLookup translations s
  { recs := st.recs ++
      [⟨"m_" ++ s.sid, m, st.modernText.length, st.modernText.length + m.length⟩],
    modernText := st.modernText ++ (if st.modernText.isEmpty then [] else [' ']) ++ m }

/-- The modern sentence records and modern paragraph text built by
`applyTranslations` for one paragraph. -/
def buildModernParagraph (translations : List (String × Str))
    (sentences : List SentenceRec) : ModernState :=
  sentences.foldl (modernStep translations) ⟨[], []⟩

/-! ## Predicates used by the claims -/

/-- Non-whitespace projection of a string (used to compare texts while
disregarding whitespace). -/
def dropWS (l : Str) : Str := l.filter (fun c => !(isJsSpace c))

/-- The sentence texts interleave with whitespace-only separators to form
`norm`: the reading of "concatenating the sentence texts, disregarding
inter-sentence whitespace, yields `norm`". -/
def reconstructsModuloInterWS (texts : List Str) (norm : Str) : Prop :=
  ∃ w0 ws, ws.length = texts.length ∧ (∀ c ∈ w0, isJsSpace c = true) ∧
    (∀ w ∈ ws, ∀ c ∈ w, isJsSpace c = true) ∧
    norm = w0 ++ ((texts.zip ws).map (fun p => p.1 ++ p.2)).flatten

/-- The text accumulated by the segmenter loop so far: the emitted sentence
texts followed by the pending buffer. -/
def segAccText (st : SegState) : Str :=
  (st.sentences.map (fun r => r.text)).flatten ++ st.sentenceBuffer

/-- Offset well-formedness of a list of sentence records: `start ≤ end`,
`end - start` is the text length, and offsets are non-decreasing from one
record to the next. -/
def recsOffsetsOk (recs : List SentenceRec) : Prop :=
  (∀ r ∈ recs, r.start ≤ r.endPos ∧ r.endPos = r.start + r.text.length) ∧
  recs.Chain' (fun a b => a.endPos ≤ b.start)

/-- A failure sentinel produced by the orchestrator (both the per-index and
the per-message form start with this fixed text). -/
def isFailSentinelStart (v : Str) : Bool :=
  v.take 19 == "[Translation failed".data

/-- A five-unit batch, used to instantiate the batch-response claims. -/
def batchFive : List TUnit :=
  [⟨"s1", "a".data⟩, ⟨"s2", "b".data⟩, ⟨"s3", "c".data⟩, ⟨"s4", "d".data⟩,
   ⟨"s5", "e".data⟩]

/-- A parsed batch response covering keys 1,2,4,5 but missing key 3. -/
def parsedMissing3 : List (String × Str) :=
  [("1", "t1".data), ("2", "t2".data), ("4", "t4".data), ("5", "t5".data)]

/-- A model response consisting of two JSON objects side by side. -/
def mixedResponse : Str := "\x7b\"1\": \"x\"\x7d \x7b\"2\": \"y\"\x7d".data

/-! ## Theorems -/

/-- Claim C3 (code evaluation): on the paragraph "Dr. Smith left. He
returned." the segmenter does return two records, but the first record's text
is "Dr.Smith left." — the space after the suppressed abbreviation boundary is
lost because the delimiter part is trimmed before the abbreviation check —
whereas the spec expects "Dr. Smith left.". -/
theorem claim_C3_eval :
    (segmentParagraph "Dr. Smith left. He returned.".data "ch1_p1").map
        (fun r => r.text) =
      ["Dr.Smith left.".data, "He returned.".data] ∧
    ("Dr.Smith left.".data == "Dr. Smith left.".data) = false := by
  constructor
  · decide
  · decide

/-- Claim C8: `estimateCost(100, 400)` reports 100 × ceil(400/4) = 10000
estimated input tokens, 100 × 100 = 10000 output tokens, and a total cost of
`(10000·priceIn + 10000·priceOut)/1e6` rendered to four decimal places,
namely "0.0040". -/
theorem claim_C8_estimateCost :
    (estimateCost 100 400).estimatedInputTokens = 100 * ((400 + 3) / 4) ∧
    (estimateCost 100 400).estimatedInputTokens = 10000 ∧
    (estimateCost 100 400).estimatedOutputTokens = 100 * 100 ∧
    (estimateCost 100 400).estimatedTotalCost =
      toFixed4ofE8 (10000 * priceInCenti + 10000 * priceOutCenti) ∧
    (estimateCost 100 400).estimatedTotalCost = "0.0040" := by
  refine ⟨rfl, rfl, rfl, ?_, ?_⟩ <;> decide


theorem dropWhile_head_false {p : Char → Bool} :
    ∀ {l : Str} {c : Char} {cs : Str}, l.dropWhile p = c :: cs → p c = false := by
  intro l
  induction l with
  | nil => intro c cs h; simp [List.dropWhile] at h
  | cons a as ih =>
    intro c cs h
    by_cases ha : p a
    · rw [List.dropWhile_cons_of_pos ha] at h
      exact ih h
    · rw [List.dropWhile_cons_of_neg ha] at h
      cases h
      simpa using ha

/-- Helper: `dropWhile` is the identity when the head fails the predicate. -/
theorem dropWhile_eq_self_of_head {p : Char → Bool} {l : Str}
    (h : ∀ c cs, l = c :: cs → p c = false) : l.dropWhile p = l := by
  cases l with
  | nil => rfl
  | cons c cs => rw [List.dropWhile_cons_of_neg]; simp [h c cs rfl]

/-- Claim C1 (counterexample): on "See p. 5." the segmenter emits the single
record "See p.5." (the space after the abbreviation is lost), so the sentence
texts do not reconstruct the normalized paragraph even after discarding
whitespace that lies between sentences. -/
theorem claim_C1_counterexample :
    (segmentParagraph "See p. 5.".data "p").map (fun r => r.text) =
      ["See p.5.".data] ∧
    ¬ reconstructsModuloInterWS ["See p.5.".data] (normalizeText "See p. 5.".data) := by
  constructor
  · decide
  · rintro ⟨w0, ws, hlen, hw0, hws, heq⟩
    have hn : normalizeText "See p. 5.".data = "See p. 5.".data := by decide
    rw [hn] at heq
    obtain ⟨w, rfl⟩ : ∃ w, ws = [w] := by
      cases ws with
      | nil => simp at hlen
      | cons w t =>
        cases t with
        | nil => exact ⟨w, rfl⟩
        | cons w2 t2 => simp at hlen
    simp only [List.zip_cons_cons, List.zip_nil_left, List.map_cons, List.map_nil,
      List.flatten_cons, List.flatten_nil, List.append_nil] at heq
    cases w0 with
    | nil =>
      simp only [List.nil_append] at heq
      have h6 := congrArg (fun l => l[6]?) heq
      simp only at h6
      rw [List.getElem?_append_left (by decide)] at h6
      exact absurd h6 (by decide)
    | cons c w0' =>
      have hc : c = 'S' := by
        have hh := congrArg List.head? heq
        simpa using hh.symm
      have hmem : isJsSpace c = true := hw0 c (List.mem_cons_self c w0')
      rw [hc] at hmem
      exact absurd hmem (by decide)

/-- Claim C4 (counterexample): a cache entry whose value is the empty string
is an entry for the sid, yet `filterCachedSentences` does not exclude the
unit (JS truthiness), so the filter does not return "exactly the units whose
sid has no cache entry". -/
theorem claim_C4_counterexample :
    filterCachedSentences [⟨"s1", "x".data⟩] [("s1", ([] : Str))] =
      [⟨"s1", "x".data⟩] ∧
    assocLookup [("s1", ([] : Str))] "s1" = some [] ∧
    List.filter (fun u => (assocLookup [("s1", ([] : Str))] u.sid).isNone)
      [TUnit.mk "s1" "x".data] = [] := by
  refine ⟨?_, ?_, ?_⟩ <;> decide

/-- Claim C5 (counterexample): the record emitted for "See p. 5." has offsets
[0, 8) into the normalized paragraph text, but its text is not the substring
at those offsets. -/
theorem claim_C5_counterexample :
    segmentParagraph "See p. 5.".data "p" = [⟨"p_s1", "See p.5.".data, 0, 8⟩] ∧
    ((normalizeText "See p. 5.".data).drop 0).take (8 - 0) ≠ "See p.5.".data := by
  constructor
  · decide
  · decide

/-- Claim C6 (counterexample): with response keys {1,2,4,5} present and key
"3" missing out of 5 units, unit #3 receives the sentinel
"[Translation failed for index 2]" — the message carries the 0-based index 2,
not the unit's 1-based number 3 — while the other units keep their parsed
translations. -/
theorem claim_C6_counterexample :
    assocLookup (mapTranslations batchFive parsedMissing3) "s3" =
      some "[Translation failed for index 2]".data ∧
    assocLookup (mapTranslations batchFive parsedMissing3) "s1" = some "t1".data ∧
    assocLookup (mapTranslations batchFive parsedMissing3) "s2" = some "t2".data ∧
    assocLookup (mapTranslations batchFive parsedMissing3) "s4" = some "t4".data ∧
    assocLookup (mapTranslations batchFive parsedMissing3) "s5" = some "t5".data ∧
    "[Translation failed for index 2]".data ≠
      "[Translation failed for index 3]".data := by
  refine ⟨?_, ?_, ?_, ?_, ?_, ?_⟩ <;> decide

/-- Claim C6 (amended): `translateBatchGroup`'s mapping phase totalizes the
parsed response over the batch: the unit at 0-based position `i` keeps the
response value under key `(i+1)` when that value is present and non-empty,
and otherwise — key missing or value an empty string — receives the sentinel
`[Translation failed for index i]` (0-based index in the message); the group
call is still a success. -/
theorem claim_C6_partialResponse (batch : List TUnit) (parsed : List (String × Str))
    (i : Nat) (h : i < batch.length) :
    ∃ u, batch[i]? = some u ∧
      (∀ v, jsTruthy (assocLookup parsed (toString (i + 1))) = some v →
          (mapTranslations batch parsed)[i]? = some (u.sid, v)) ∧
      (jsTruthy (assocLookup parsed (toString (i + 1))) = none →
          (mapTranslations batch parsed)[i]? = some (u.sid, failIndexSentinel i)) := by
  refine ⟨batch[i], List.getElem?_eq_getElem h, ?_, ?_⟩
  · intro v hv
    simp only [mapTranslations, List.getElem?_map, List.getElem?_enum,
      List.getElem?_eq_getElem h, Option.map_some']
    rw [hv]
  · intro hv
    simp only [mapTranslations, List.getElem?_map, List.getElem?_enum,
      List.getElem?_eq_getElem h, Option.map_some']
    rw [hv]

/-- Witness for C6 (amended) on the five-unit batch at position 2 (the unit
whose key "3" is missing). -/
theorem claim_C6_witness :
    ∃ u, batchFive[2]? = some u ∧
      (∀ v, jsTruthy (assocLookup parsedMissing3 (toString (2 + 1))) = some v →
          (mapTranslations batchFive parsedMissing3)[2]? = some (u.sid, v)) ∧
      (jsTruthy (assocLookup parsedMissing3 (toString (2 + 1))) = none →
          (mapTranslations batchFive parsedMissing3)[2]? =
            some (u.sid, failIndexSentinel 2)) :=
  claim_C6_partialResponse batchFive parsedMissing3 2 (by decide)

/-- Claim C7 (counterexample): on a response holding two JSON objects side by
side, the code's fallback — the greedy regexp from the first opening to the
last closing brace — fails to parse, while the spec's "first balanced
substring" fallback would succeed; so the code does not implement the
balanced-substring fallback and the two procedures disagree. -/
theorem claim_C7_counterexample :
    parseAttempt mixedResponse = none ∧
    parseAttemptSpec mixedResponse = some [("1", "x".data)] ∧
    parseAttempt mixedResponse ≠ parseAttemptSpec mixedResponse := by
  refine ⟨?_, ?_, ?_⟩ <;> decide

/-- Claim C7 (amended): each attempt first tries the strict parse; on failure
it parses the regexp-extracted substring, which runs from the first opening
brace of the response to the last closing brace (not the first balanced
substring); the attempt fails exactly when both parses fail, and the group
call fails — propagating to the caller — exactly when every retry attempt
fails. -/
theorem claim_C7_parseFallback (content : Str) (attempts : List Str) :
    (parseAttempt content = none ↔
      strictJsonParse content = none ∧
      ∀ s, extractBraces content = some s → strictJsonParse s = none) ∧
    (∀ s, extractBraces content = some s →
      ∃ a b, content = a ++ s ++ b ∧ (∀ c ∈ a, c ≠ lbraceChar) ∧
        (∀ c ∈ b, c ≠ rbraceChar) ∧
        s.head? = some lbraceChar ∧ s.getLast? = some rbraceChar) ∧
    (firstParsed attempts = none ↔ ∀ a ∈ attempts, parseAttempt a = none) := by
  refine ⟨?_, ?_, ?_⟩
  · cases hs : strictJsonParse content with
    | some o => simp [parseAttempt, hs]
    | none =>
      cases he : extractBraces content with
      | none => simp [parseAttempt, hs, he]
      | some s0 => simp [parseAttempt, hs, he]
  · intro s hsome
    simp only [extractBraces] at hsome
    split at hsome
    · exact absurd hsome (by simp)
    · rename_i hne
      cases hsome
      refine ⟨content.takeWhile (fun c => !(c = lbraceChar)),
        ((content.dropWhile (fun c => !(c = lbraceChar))).reverse.takeWhile
          (fun c => !(c = rbraceChar))).reverse, ?_, ?_, ?_, ?_, ?_⟩
      · conv_lhs => rw [← List.takeWhile_append_dropWhile
          (p := fun c => !(c = lbraceChar)) (l := content)]
        rw [List.append_assoc]
        congr 1
        conv_lhs => rw [← List.reverse_reverse
          (content.dropWhile (fun c => !(c = lbraceChar)))]
        conv_lhs => rw [← List.takeWhile_append_dropWhile
          (p := fun c => !(c = rbraceChar))
          (l := (content.dropWhile (fun c => !(c = lbraceChar))).reverse)]
        rw [List.reverse_append]
      · intro c hc
        have := List.mem_takeWhile_imp hc
        simpa using this
      · intro c hc
        rw [List.mem_reverse] at hc
        have := List.mem_takeWhile_imp hc
        simpa using this
      · have hnil : ((content.dropWhile (fun c => !(c = lbraceChar))).reverse.dropWhile
              (fun c => !(c = rbraceChar))).reverse ≠ [] := by
          intro hh
          rw [hh] at hne
          simp at hne
        obtain ⟨c, cs, hcons⟩ := List.exists_cons_of_ne_nil hnil
        rw [hcons]
        have hdw : content.dropWhile (fun c => !(c = lbraceChar)) = c :: (cs ++
            ((content.dropWhile (fun c => !(c = lbraceChar))).reverse.takeWhile
              (fun c => !(c = rbraceChar))).reverse) := by
          conv_lhs => rw [← List.reverse_reverse
            (content.dropWhile (fun c => !(c = lbraceChar)))]
          conv_lhs => rw [← List.takeWhile_append_dropWhile
            (p := fun c => !(c = rbraceChar))
            (l := (content.dropWhile (fun c => !(c = lbraceChar))).reverse)]
          rw [List.reverse_append, hcons, List.cons_append]
        have hq := dropWhile_head_false hdw
        simp only [Bool.not_eq_false', decide_eq_true_eq] at hq
        simp [hq]
      · rw [List.getLast?_reverse]
        obtain ⟨c, cs, hcons⟩ : ∃ c cs,
            (content.dropWhile (fun c => !(c = lbraceChar))).reverse.dropWhile
              (fun c => !(c = rbraceChar)) = c :: cs := by
          rcases hd : (content.dropWhile (fun c => !(c = lbraceChar))).reverse.dropWhile
              (fun c => !(c = rbraceChar)) with _ | ⟨c, cs⟩
          · rw [hd] at hne
            simp at hne
          · exact ⟨c, cs, rfl⟩
        have hq := dropWhile_head_false hcons
        simp only [Bool.not_eq_false', decide_eq_true_eq] at hq
        rw [hcons, hq]
        rfl
  · induction attempts with
    | nil => simp [firstParsed]
    | cons a rest ih =>
      cases hp : parseAttempt a with
      | some o => simp [firstParsed, hp]
      | none => simp [firstParsed, hp, ih]

/-- Witness for C7 (amended) at the two-object response, with a single retry
attempt. -/
theorem claim_C7_witness :
    (parseAttempt mixedResponse = none ↔
      strictJsonParse mixedResponse = none ∧
      ∀ s, extractBraces mixedResponse = some s → strictJsonParse s = none) ∧
    (∀ s, extractBraces mixedResponse = some s →
      ∃ a b, mixedResponse = a ++ s ++ b ∧ (∀ c ∈ a, c ≠ lbraceChar) ∧
        (∀ c ∈ b, c ≠ rbraceChar) ∧
        s.head? = some lbraceChar ∧ s.getLast? = some rbraceChar) ∧
    (firstParsed [mixedResponse] = none ↔
      ∀ a ∈ [mixedResponse], parseAttempt a = none) :=
  claim_C7_parseFallback mixedResponse [mixedResponse]

/-- Helper: a fold that appends per-element lists is the flattened map. -/
theorem foldl_append_flatten {α β : Type} (f : α → List β) :
    ∀ (l : List α) (acc : List β),
      l.foldl (fun acc x => acc ++ f x) acc = acc ++ (l.map f).flatten := by
  intro l
  induction l with
  | nil => intro acc; simp
  | cons x xs ih => intro acc; simp [List.foldl_cons, ih, List.append_assoc]

/-- `translateBatch` as the concatenation of the group contributions. -/
theorem translateBatch_eq (units : List TUnit) (bs : Nat) (oc : Nat → GroupOutcome) :
    translateBatch units bs oc =
      ((chunkList bs units).enum.map (groupResult oc)).flatten := by
  rw [translateBatch, foldl_append_flatten, List.nil_append]

/-- The batching loop partitions the unit list: flattening the groups gives
back the input. -/
theorem chunkGo_flatten {α : Type} :
    ∀ (fuel bs : Nat) (l : List α), (chunkGo fuel bs l).flatten = l := by
  intro fuel
  induction fuel with
  | zero => intro bs l; cases l <;> simp [chunkGo]
  | succ f ih =>
    intro bs l
    cases l with
    | nil => simp [chunkGo]
    | cons x xs =>
      rw [show chunkGo (f + 1) bs (x :: xs) =
            (x :: xs).take bs :: chunkGo f bs ((x :: xs).drop bs) from rfl,
        List.flatten_cons, ih, List.take_append_drop]

/-- Each group's entries carry exactly the sids of the group's units, in
order, whether the group succeeded or failed. -/
theorem groupResult_keys (oc : Nat → GroupOutcome) (gp : Nat × List TUnit) :
    (groupResult oc gp).map Prod.fst = gp.2.map TUnit.sid := by
  unfold groupResult
  cases oc gp.1 with
  | ok parsed =>
    simp only [mapTranslations, List.map_map, Function.comp_def]
    rw [show (fun p : Nat × TUnit => p.2.sid) = (TUnit.sid ∘ Prod.snd) from rfl,
      ← List.map_map, List.enum_map_snd]
  | error msg => simp [List.map_map, Function.comp_def]

/-- The aggregate map's key list is exactly the input sid list. -/
theorem translateBatch_keys (units : List TUnit) (bs : Nat) (oc : Nat → GroupOutcome) :
    (translateBatch units bs oc).map Prod.fst = units.map TUnit.sid := by
  rw [translateBatch_eq, List.map_flatten, List.map_map]
  have h1 : ((chunkList bs units).enum.map (List.map Prod.fst ∘ groupResult oc)) =
      (chunkList bs units).enum.map (fun gp => gp.2.map TUnit.sid) :=
    List.map_congr_left (fun gp _ => groupResult_keys oc gp)
  rw [h1,
    show (fun gp : Nat × List TUnit => gp.2.map TUnit.sid) =
      ((fun b : List TUnit => b.map TUnit.sid) ∘ Prod.snd) from rfl,
    ← List.map_map, List.enum_map_snd, ← List.map_flatten]
  unfold chunkList
  rw [chunkGo_flatten]

/-- `jsTruthy` only returns values that are present and non-empty. -/
theorem jsTruthy_eq_some {o : Option Str} {v : Str} (h : jsTruthy o = some v) :
    o = some v ∧ v ≠ [] := by
  cases o with
  | none => simp [jsTruthy] at h
  | some w =>
    by_cases hw : w.isEmpty
    · simp [jsTruthy, hw] at h
    · simp [jsTruthy, hw] at h
      subst h
      exact ⟨rfl, by simpa [List.isEmpty_iff] using hw⟩

/-- The per-message sentinel starts with the fixed failure text. -/
theorem isFailSentinelStart_msg (msg : Str) :
    isFailSentinelStart (failMsgSentinel msg) = true := by
  have h : failMsgSentinel msg =
      "[Translation failed".data ++ (": ".data ++ msg ++ [']']) := by
    simp [failMsgSentinel]
  rw [isFailSentinelStart, h,
    show (19 : Nat) = "[Translation failed".data.length from rfl, List.take_left]
  simp

/-- The per-index sentinel starts with the fixed failure text. -/
theorem isFailSentinelStart_idx (idx : Nat) :
    isFailSentinelStart (failIndexSentinel idx) = true := by
  have h : failIndexSentinel idx =
      "[Translation failed".data ++ (" for index ".data ++ natToStr idx ++ [']']) := by
    simp [failIndexSentinel]
  rw [isFailSentinelStart, h,
    show (19 : Nat) = "[Translation failed".data.length from rfl, List.take_left]
  simp

/-- Every value in the aggregate map is non-empty and is either a parsed
translation from a successful group or a failure sentinel. -/
theorem translateBatch_values (units : List TUnit) (bs : Nat)
    (oc : Nat → GroupOutcome) :
    ∀ p ∈ translateBatch units bs oc,
      p.2 ≠ [] ∧
      (isFailSentinelStart p.2 = true ∨
        ∃ g parsed key, oc g = Except.ok parsed ∧ assocLookup parsed key = some p.2) := by
  rw [translateBatch_eq]
  intro p hp
  rw [List.mem_flatten] at hp
  obtain ⟨lnk, hl, hpl⟩ := hp
  rw [List.mem_map] at hl
  obtain ⟨gp, _, rfl⟩ := hl
  unfold groupResult at hpl
  cases ho : oc gp.1 with
  | ok parsed =>
    rw [ho] at hpl
    simp only [mapTranslations] at hpl
    rw [List.mem_map] at hpl
    obtain ⟨iu, _, rfl⟩ := hpl
    cases hj : jsTruthy (assocLookup parsed (toString (iu.1 + 1))) with
    | some v =>
      obtain ⟨hlook, hne⟩ := jsTruthy_eq_some hj
      simp only [hj]
      exact ⟨hne, Or.inr ⟨gp.1, parsed, toString (iu.1 + 1), ho, hlook⟩⟩
    | none =>
      simp only [hj]
      refine ⟨?_, Or.inl (isFailSentinelStart_idx iu.1)⟩
      simp [failIndexSentinel]
  | error msg =>
    rw [ho] at hpl
    rw [List.mem_map] at hpl
    obtain ⟨u, _, rfl⟩ := hpl
    refine ⟨?_, Or.inl (isFailSentinelStart_msg msg)⟩
    simp [failMsgSentinel]

/-- Claim C2: the orchestrator's result covers exactly the input sids, in
order; every value is either a parsed translation of a successful group or a
failure sentinel; and a group that failed after its retries contributes
per-unit sentinel entries instead of making `translateBatch` throw (the model
is total over arbitrary group outcomes, including failures). -/
theorem claim_C2_translateBatch (units : List TUnit) (batchSize : Nat)
    (outcomes : Nat → GroupOutcome) :
    (translateBatch units batchSize outcomes).map Prod.fst = units.map TUnit.sid ∧
    (∀ p ∈ translateBatch units batchSize outcomes,
      isFailSentinelStart p.2 = true ∨
        ∃ g parsed key, outcomes g = Except.ok parsed ∧
          assocLookup parsed key = some p.2) ∧
    (∀ gp ∈ (chunkList batchSize units).enum, ∀ msg,
      outcomes gp.1 = Except.error msg →
      ∀ u ∈ gp.2, (u.sid, failMsgSentinel msg) ∈ translateBatch units batchSize outcomes) := by
  refine ⟨translateBatch_keys units batchSize outcomes,
    fun p hp => (translateBatch_values units batchSize outcomes p hp).2, ?_⟩
  intro gp hgp msg hmsg u hu
  rw [translateBatch_eq, List.mem_flatten]
  refine ⟨groupResult outcomes gp, List.mem_map_of_mem (groupResult outcomes) hgp, ?_⟩
  unfold groupResult
  rw [hmsg, List.mem_map]
  exact ⟨u, hu, rfl⟩

/-- Witness for C2: two units, batch size 10, the single group failing after
retries with message "boom"; both sids are still covered. -/
theorem claim_C2_witness :
    (translateBatch [⟨"s1", "a".data⟩, ⟨"s2", "b".data⟩] 10
        (fun _ => Except.error "boom".data)).map Prod.fst =
      [TUnit.mk "s1" "a".data, TUnit.mk "s2" "b".data].map TUnit.sid ∧
    (∀ p ∈ translateBatch [⟨"s1", "a".data⟩, ⟨"s2", "b".data⟩] 10
        (fun _ => Except.error "boom".data),
      isFailSentinelStart p.2 = true ∨
        ∃ g parsed key, (fun _ => Except.error "boom".data : Nat → GroupOutcome) g =
            Except.ok parsed ∧ assocLookup parsed key = some p.2) ∧
    (∀ gp ∈ (chunkList 10 [TUnit.mk "s1" "a".data, TUnit.mk "s2" "b".data]).enum, ∀ msg,
      (fun _ => Except.error "boom".data : Nat → GroupOutcome) gp.1 = Except.error msg →
      ∀ u ∈ gp.2, (u.sid, failMsgSentinel msg) ∈
        translateBatch [⟨"s1", "a".data⟩, ⟨"s2", "b".data⟩] 10
          (fun _ => Except.error "boom".data)) :=
  claim_C2_translateBatch [⟨"s1", "a".data⟩, ⟨"s2", "b".data⟩] 10
    (fun _ => Except.error "boom".data)

/-- Helper: association lookup over an appended map prefers the left map. -/
theorem assocLookup_append (a b : List (String × Str)) (k : String) :
    assocLookup (a ++ b) k =
      match assocLookup a k with
      | some v => some v
      | none => assocLookup b k := by
  unfold assocLookup
  rw [List.find?_append]
  cases h : a.find? (fun p => p.1 == k) <;> simp [Option.orElse]

/-- Helper: a key present in the key list has a lookup value. -/
theorem assocLookup_isSome_of_mem_keys {l : List (String × Str)} {k : String}
    (h : k ∈ l.map Prod.fst) : ∃ v, assocLookup l k = some v := by
  induction l with
  | nil => simp at h
  | cons p t ih =>
    by_cases hp : p.1 = k
    · exact ⟨p.2, by simp [assocLookup, List.find?_cons, hp]⟩
    · have hk : k ∈ t.map Prod.fst := by
        rcases List.mem_map.mp h with ⟨q, hq, hqk⟩
        rcases List.mem_cons.mp hq with rfl | hqt
        · exact absurd hqk hp
        · exact hqk ▸ List.mem_map_of_mem Prod.fst hqt
      obtain ⟨v, hv⟩ := ih hk
      refine ⟨v, ?_⟩
      unfold assocLookup at hv ⊢
      rw [List.find?_cons]
      have : (p.1 == k) = false := by simpa using hp
      rw [this]
      exact hv

/-- Helper: a successful lookup comes from an entry of the map. -/
theorem assocLookup_mem {l : List (String × Str)} {k : String} {v : Str}
    (h : assocLookup l k = some v) : ∃ q ∈ l, q.2 = v := by
  unfold assocLookup at h
  cases hf : l.find? (fun p => p.1 == k) with
  | none => rw [hf] at h; simp at h
  | some q =>
    rw [hf] at h
    simp only [Option.map_some'] at h
    exact ⟨q, List.mem_of_find?_eq_some hf, by injection h⟩

/-- Helper: values looked up in a `translateBatch` result are never empty. -/
theorem translateBatch_lookup_ne_nil {units : List TUnit} {bs : Nat}
    {oc : Nat → GroupOutcome} {k : String} {v : Str}
    (h : assocLookup (translateBatch units bs oc) k = some v) : v ≠ [] := by
  obtain ⟨q, hq, hv⟩ := assocLookup_mem h
  exact hv ▸ (translateBatch_values units bs oc q hq).1

/-- Helper: the orchestrator on an empty unit list is empty. -/
theorem translateBatch_nil (bs : Nat) (oc : Nat → GroupOutcome) :
    translateBatch [] bs oc = [] := rfl

/-- Helper: lookup in the empty map. -/
theorem assocLookup_nil (k : String) : assocLookup [] k = none := rfl

/-- Helper: every unit of the pipeline input has a truthy entry in the cache
left behind by a run. -/
theorem runPipeline_cacheAfter_covers (units : List TUnit)
    (cache : List (String × Str)) (bs : Nat) (oc : Nat → GroupOutcome) :
    ∀ u ∈ units, ∃ v,
      jsTruthy (assocLookup (runPipeline units cache bs oc).cacheAfter u.sid) =
        some v := by
  intro u hu
  simp only [runPipeline, mergeCache]
  rw [assocLookup_append]
  cases htr : assocLookup (translateBatch (filterCachedSentences units cache) bs oc)
      u.sid with
  | some w =>
    have hw : w ≠ [] := translateBatch_lookup_ne_nil htr
    exact ⟨w, by simp [jsTruthy, List.isEmpty_iff, hw]⟩
  | none =>
    show ∃ v, jsTruthy (assocLookup cache u.sid) = some v
    cases hc : jsTruthy (assocLookup cache u.sid) with
    | some v => exact ⟨v, rfl⟩
    | none =>
      have hmemT : u ∈ filterCachedSentences units cache := by
        rw [filterCachedSentences, List.mem_filter]
        exact ⟨hu, by rw [hc]; rfl⟩
      have hk : u.sid ∈ (translateBatch (filterCachedSentences units cache) bs oc).map
          Prod.fst := by
        rw [translateBatch_keys]
        exact List.mem_map_of_mem TUnit.sid hmemT
      obtain ⟨v, hv⟩ := assocLookup_isSome_of_mem_keys hk
      rw [htr] at hv
      simp at hv

/-- Helper: after a run, a second filter pass keeps nothing. -/
theorem filterCached_after_run (units : List TUnit) (cache : List (String × Str))
    (bs : Nat) (oc : Nat → GroupOutcome) :
    filterCachedSentences units (runPipeline units cache bs oc).cacheAfter = [] := by
  rw [filterCachedSentences, List.filter_eq_nil_iff]
  intro u hu
  obtain ⟨v, hv⟩ := runPipeline_cacheAfter_covers units cache bs oc u hu
  simp [hv]

/-- Claim C4 (amended): a unit whose sid has a truthy (non-empty) cache entry
is excluded before the batch orchestrator is invoked, and a second pipeline
run over the same input against the cache produced by the first run issues
zero external calls and yields identical output. -/
theorem claim_C4_cachedPipeline (units : List TUnit) (cache : List (String × Str))
    (batchSize : Nat) (outcomes outcomes2 : Nat → GroupOutcome) :
    (∀ u ∈ units, ∀ v, jsTruthy (assocLookup cache u.sid) = some v →
      u ∉ filterCachedSentences units cache) ∧
    (runPipeline units (runPipeline units cache batchSize outcomes).cacheAfter
        batchSize outcomes2).externalCalls = 0 ∧
    (runPipeline units (runPipeline units cache batchSize outcomes).cacheAfter
        batchSize outcomes2).output =
      (runPipeline units cache batchSize outcomes).output := by
  refine ⟨?_, ?_, ?_⟩
  · intro u _ v hv hmem
    rw [filterCachedSentences, List.mem_filter] at hmem
    rw [hv] at hmem
    simp at hmem
  · have h2 := filterCached_after_run units cache batchSize outcomes
    simp only [runPipeline] at h2 ⊢
    rw [h2]
    rfl
  · have h2 := filterCached_after_run units cache batchSize outcomes
    simp only [runPipeline] at h2 ⊢
    rw [h2, translateBatch_nil]
    apply List.map_congr_left
    intro u _
    rw [assocLookup_nil]
    simp only [mergeCache]
    rw [assocLookup_append]
    cases htr : assocLookup (translateBatch (filterCachedSentences units cache)
        batchSize outcomes) u.sid with
    | some w =>
      have hw : w ≠ [] := translateBatch_lookup_ne_nil htr
      simp [jsTruthy, List.isEmpty_iff, hw]
    | none => simp

/-- Witness for C4 (amended): one unit, a cache holding a truthy entry for
it; the unit is excluded, and a second run issues zero calls with identical
output. -/
theorem claim_C4_witness :
    (∀ u ∈ [TUnit.mk "s1" "x".data], ∀ v,
      jsTruthy (assocLookup [("s1", "Hello.".data)] u.sid) = some v →
      u ∉ filterCachedSentences [TUnit.mk "s1" "x".data] [("s1", "Hello.".data)]) ∧
    (runPipeline [TUnit.mk "s1" "x".data]
        (runPipeline [TUnit.mk "s1" "x".data] [("s1", "Hello.".data)] 10
          (fun _ => Except.error "boom".data)).cacheAfter 10
        (fun _ => Except.ok [])).externalCalls = 0 ∧
    (runPipeline [TUnit.mk "s1" "x".data]
        (runPipeline [TUnit.mk "s1" "x".data] [("s1", "Hello.".data)] 10
          (fun _ => Except.error "boom".data)).cacheAfter 10
        (fun _ => Except.ok [])).output =
      (runPipeline [TUnit.mk "s1" "x".data] [("s1", "Hello.".data)] 10
        (fun _ => Except.error "boom".data)).output :=
  claim_C4_cachedPipeline [TUnit.mk "s1" "x".data] [("s1", "Hello.".data)] 10
    (fun _ => Except.error "boom".data) (fun _ => Except.ok [])

/-- Helper: trimming never lengthens a string. -/
theorem trimStr_length_le (l : Str) : (trimStr l).length ≤ l.length := by
  unfold trimStr trimLeft
  calc ((l.dropWhile isJsSpace).reverse.dropWhile isJsSpace).reverse.length
      = ((l.dropWhile isJsSpace).reverse.dropWhile isJsSpace).length :=
        List.length_reverse _
    _ ≤ (l.dropWhile isJsSpace).reverse.length :=
        (List.dropWhile_sublist _).length_le
    _ = (l.dropWhile isJsSpace).length := List.length_reverse _
    _ ≤ l.length := (List.dropWhile_sublist _).length_le

/-- Helper: one segmenter step preserves the offset invariants. -/
theorem segStep_inv (pid : String) (st : SegState) (part : Str)
    (h1 : ∀ r ∈ st.sentences, r.endPos = r.start + r.text.length)
    (h2 : st.sentences.Chain' (fun a b => a.endPos ≤ b.start))
    (h3 : ∀ r, st.sentences.getLast? = some r → r.endPos ≤ st.sentenceStart)
    (h4 : st.sentenceStart + st.sentenceBuffer.length ≤ st.currentPos) :
    (∀ r ∈ (segStep pid st part).sentences, r.endPos = r.start + r.text.length) ∧
    (segStep pid st part).sentences.Chain' (fun a b => a.endPos ≤ b.start) ∧
    (∀ r, (segStep pid st part).sentences.getLast? = some r →
      r.endPos ≤ (segStep pid st part).sentenceStart) ∧
    (segStep pid st part).sentenceStart +
        (segStep pid st part).sentenceBuffer.length ≤
      (segStep pid st part).currentPos := by
  simp only [segStep]
  split
  · exact ⟨h1, h2, h3, h4⟩
  · split
    · split
      · refine ⟨h1, h2, h3, ?_⟩
        simp only
        rw [List.length_append]
        calc st.sentenceStart + (st.sentenceBuffer.length + (trimStr part).length)
            = st.sentenceStart + st.sentenceBuffer.length + (trimStr part).length := by
              omega
          _ ≤ st.currentPos + (trimStr part).length := by
              exact Nat.add_le_add_right h4 _
          _ ≤ st.currentPos + part.length :=
              Nat.add_le_add_left (trimStr_length_le part) _
      · split
        · rename_i hlen
          have htlen : (trimStr (st.sentenceBuffer ++ trimStr part)).length ≤
              st.sentenceBuffer.length + part.length := by
            calc (trimStr (st.sentenceBuffer ++ trimStr part)).length
                ≤ (st.sentenceBuffer ++ trimStr part).length :=
                  trimStr_length_le _
              _ = st.sentenceBuffer.length + (trimStr part).length :=
                  List.length_append _ _
              _ ≤ st.sentenceBuffer.length + part.length :=
                  Nat.add_le_add_left (trimStr_length_le part) _
          refine ⟨?_, ?_, ?_, ?_⟩
          · intro r hr
            rcases List.mem_append.mp hr with hr | hr
            · exact h1 r hr
            · rcases List.mem_singleton.mp hr with rfl
              rfl
          · rw [List.chain'_append]
            refine ⟨h2, List.chain'_singleton _, ?_⟩
            intro x hx y hy
            rcases List.mem_singleton.mp (by simpa using hy) with rfl
            exact h3 x (by simpa using hx)
          · intro r hr
            rw [List.getLast?_concat] at hr
            rcases Option.some_inj.mp hr with rfl
            simp only
            calc st.sentenceStart + (trimStr (st.sentenceBuffer ++ trimStr part)).length
                ≤ st.sentenceStart + (st.sentenceBuffer.length + part.length) := by
                  exact Nat.add_le_add_left htlen _
              _ = st.sentenceStart + st.sentenceBuffer.length + part.length := by omega
              _ ≤ st.currentPos + part.length := Nat.add_le_add_right h4 _
          · simp
        · refine ⟨h1, h2, h3, ?_⟩
          simp only
          rw [List.length_append]
          calc st.sentenceStart + (st.sentenceBuffer.length + (trimStr part).length)
              = st.sentenceStart + st.sentenceBuffer.length + (trimStr part).length := by
                omega
            _ ≤ st.currentPos + (trimStr part).length := Nat.add_le_add_right h4 _
            _ ≤ st.currentPos + part.length :=
                Nat.add_le_add_left (trimStr_length_le part) _
    · refine ⟨h1, h2, h3, ?_⟩
      simp only
      rw [List.length_append]
      omega

/-- Helper: the segmenter's fold preserves the offset invariants. -/
theorem segFold_inv (pid : String) :
    ∀ (parts : List Str) (st : SegState),
      (∀ r ∈ st.sentences, r.endPos = r.start + r.text.length) →
      st.sentences.Chain' (fun a b => a.endPos ≤ b.start) →
      (∀ r, st.sentences.getLast? = some r → r.endPos ≤ st.sentenceStart) →
      st.sentenceStart + st.sentenceBuffer.length ≤ st.currentPos →
      (∀ r ∈ (parts.foldl (segStep pid) st).sentences,
        r.endPos = r.start + r.text.length) ∧
      (parts.foldl (segStep pid) st).sentences.Chain'
        (fun a b => a.endPos ≤ b.start) ∧
      (∀ r, (parts.foldl (segStep pid) st).sentences.getLast? = some r →
        r.endPos ≤ (parts.foldl (segStep pid) st).sentenceStart) := by
  intro parts
  induction parts with
  | nil => intro st h1 h2 h3 _; exact ⟨h1, h2, h3⟩
  | cons p ps ih =>
    intro st h1 h2 h3 h4
    obtain ⟨g1, g2, g3, g4⟩ := segStep_inv pid st p h1 h2 h3 h4
    exact ih (segStep pid st p) g1 g2 g3 g4

/-- Helper: one `applyTranslations` step preserves the offset invariants. -/
theorem modernStep_inv (tr : List (String × Str)) (st : ModernState) (s : SentenceRec)
    (h1 : ∀ r ∈ st.recs, r.endPos = r.start + r.text.length)
    (h2 : st.recs.Chain' (fun a b => a.endPos ≤ b.start))
    (h3 : ∀ r, st.recs.getLast? = some r → r.endPos ≤ st.modernText.length) :
    (∀ r ∈ (modernStep tr st s).recs, r.endPos = r.start + r.text.length) ∧
    (modernStep tr st s).recs.Chain' (fun a b => a.endPos ≤ b.start) ∧
    (∀ r, (modernStep tr st s).recs.getLast? = some r →
      r.endPos ≤ (modernStep tr st s).modernText.length) := by
  unfold modernStep
  refine ⟨?_, ?_, ?_⟩
  · intro r hr
    rcases List.mem_append.mp hr with hr | hr
    · exact h1 r hr
    · rcases List.mem_singleton.mp hr with rfl
      rfl
  · rw [List.chain'_append]
    refine ⟨h2, List.chain'_singleton _, ?_⟩
    intro x hx y hy
    rcases List.mem_singleton.mp (by simpa using hy) with rfl
    exact h3 x (by simpa using hx)
  · intro r hr
    rw [List.getLast?_concat] at hr
    rcases Option.some_inj.mp hr with rfl
    simp only [List.length_append]
    omega

/-- Helper: the modern-paragraph fold preserves the offset invariants. -/
theorem modernFold_inv (tr : List (String × Str)) :
    ∀ (sentences : List SentenceRec) (st : ModernState),
      (∀ r ∈ st.recs, r.endPos = r.start + r.text.length) →
      st.recs.Chain' (fun a b => a.endPos ≤ b.start) →
      (∀ r, st.recs.getLast? = some r → r.endPos ≤ st.modernText.length) →
      (∀ r ∈ (sentences.foldl (modernStep tr) st).recs,
        r.endPos = r.start + r.text.length) ∧
      (sentences.foldl (modernStep tr) st).recs.Chain'
        (fun a b => a.endPos ≤ b.start) := by
  intro sentences
  induction sentences with
  | nil => intro st h1 h2 _; exact ⟨h1, h2⟩
  | cons s ss ih =>
    intro st h1 h2 h3
    obtain ⟨g1, g2, g3⟩ := modernStep_inv tr st s h1 h2 h3
    exact ih (modernStep tr st s) g1 g2 g3

/-- Claim C5 (amended): every record produced by the pipeline — the original
records emitted by `segmentParagraph` and the modern records built by
`applyTranslations` — satisfies `start ≤ end` with `end − start` equal to the
text length, and successive records have non-decreasing offsets; the record's
text, however, need not be the substring [start, end) of the paragraph text
(see the counterexample). -/
theorem claim_C5_offsets :
    (∀ (T : Str) (pid : String), recsOffsetsOk (segmentParagraph T pid)) ∧
    (∀ (translations : List (String × Str)) (sentences : List SentenceRec),
      recsOffsetsOk (buildModernParagraph translations sentences).recs) := by
  constructor
  · intro T pid
    simp only [segmentParagraph, recsOffsetsOk]
    obtain ⟨g1, g2, g3⟩ := segFold_inv pid (splitParts (normalizeText T))
      ⟨[], 0, [], 0, 0⟩ (by simp) (by simp) (by simp) (by simp)
    split
    · constructor
      · intro r hr
        rcases List.mem_append.mp hr with hr | hr
        · exact ⟨(g1 r hr) ▸ Nat.le_add_right _ _, g1 r hr⟩
        · rcases List.mem_singleton.mp hr with rfl
          exact ⟨Nat.le_add_right _ _, rfl⟩
      · rw [List.chain'_append]
        refine ⟨g2, List.chain'_singleton _, ?_⟩
        intro x hx y hy
        rcases List.mem_singleton.mp (by simpa using hy) with rfl
        exact g3 x (by simpa using hx)
    · exact ⟨fun r hr => ⟨(g1 r hr) ▸ Nat.le_add_right _ _, g1 r hr⟩, g2⟩
  · intro tr sentences
    unfold buildModernParagraph recsOffsetsOk
    obtain ⟨g1, g2⟩ := modernFold_inv tr sentences ⟨[], []⟩ (by simp) (by simp)
      (by simp)
    exact ⟨fun r hr => ⟨(g1 r hr) ▸ Nat.le_add_right _ _, g1 r hr⟩, g2⟩

/-- Witness for C5 (amended) on a concrete paragraph and a concrete modern
paragraph. -/
theorem claim_C5_witness :
    recsOffsetsOk (segmentParagraph "Dr. Smith left. He returned.".data "p") ∧
    recsOffsetsOk (buildModernParagraph [("p_s1", "Modern one.".data)]
      (segmentParagraph "Old one. Old two.".data "p")).recs :=
  ⟨claim_C5_offsets.1 "Dr. Smith left. He returned.".data "p",
   claim_C5_offsets.2 [("p_s1", "Modern one.".data)]
     (segmentParagraph "Old one. Old two.".data "p")⟩

/-- Helper: erasing whitespace distributes over append. -/
theorem dropWS_append (a b : Str) : dropWS (a ++ b) = dropWS a ++ dropWS b := by
  simp [dropWS]

/-- Helper: `dropWhile isJsSpace` only removes whitespace. -/
theorem dropWS_dropWhile (l : Str) : dropWS (l.dropWhile isJsSpace) = dropWS l := by
  induction l with
  | nil => rfl
  | cons c cs ih =>
    by_cases hc : isJsSpace c
    · rw [List.dropWhile_cons_of_pos hc, ih]
      simp [dropWS, hc]
    · rw [List.dropWhile_cons_of_neg hc]

/-- Helper: erasing whitespace commutes with reversal. -/
theorem dropWS_reverse (l : Str) : dropWS l.reverse = (dropWS l).reverse :=
  List.filter_reverse _ _

/-- Helper: trimming only removes whitespace. -/
theorem dropWS_trimStr (l : Str) : dropWS (trimStr l) = dropWS l := by
  unfold trimStr trimLeft
  rw [dropWS_reverse, dropWS_dropWhile, dropWS_reverse, List.reverse_reverse,
    dropWS_dropWhile]

/-- Helper: a string whose trim is empty is all whitespace. -/
theorem dropWS_of_trim_nil {l : Str} (h : trimStr l = []) : dropWS l = [] := by
  rw [← dropWS_trimStr, h]
  rfl

/-- Helper: one segmenter step only moves characters between the buffer and
the emitted sentences, dropping nothing but whitespace. -/
theorem segStep_dropWS (pid : String) (st : SegState) (part : Str) :
    dropWS (segAccText (segStep pid st part)) =
      dropWS (segAccText st) ++ dropWS part := by
  simp only [segStep]
  split
  · rename_i hem
    rw [List.isEmpty_iff.mp hem]
    simp [dropWS]
  · split
    · split
      · simp [segAccText, dropWS_append, dropWS_trimStr, List.append_assoc]
      · split
        · simp [segAccText, dropWS_append, dropWS_trimStr, List.append_assoc]
        · simp [segAccText, dropWS_append, dropWS_trimStr, List.append_assoc]
    · simp [segAccText, dropWS_append, List.append_assoc]

/-- Helper: the whitespace-erased accumulated text after the fold is the
erased input parts appended to the erased starting state. -/
theorem segFold_dropWS (pid : String) :
    ∀ (parts : List Str) (st : SegState),
      dropWS (segAccText (parts.foldl (segStep pid) st)) =
        dropWS (segAccText st) ++ dropWS parts.flatten := by
  intro parts
  induction parts with
  | nil => intro st; simp [dropWS]
  | cons p ps ih =>
    intro st
    rw [List.foldl_cons, ih, segStep_dropWS, List.flatten_cons, dropWS_append,
      List.append_assoc]

/-- Helper: dropping the length of the matched `takeWhile` is `dropWhile`. -/
theorem drop_takeWhile_length (p : Char → Bool) :
    ∀ l : Str, l.drop (l.takeWhile p).length = l.dropWhile p := by
  intro l
  induction l with
  | nil => rfl
  | cons c cs ih =>
    by_cases hc : p c
    · rw [List.takeWhile_cons_of_pos hc, List.dropWhile_cons_of_pos hc]
      simpa using ih
    · rw [List.takeWhile_cons_of_neg hc, List.dropWhile_cons_of_neg hc]
      rfl

/-- Helper: a delimiter match decomposes its input. -/
theorem matchDelim_append : ∀ {l d rest : Str},
    matchDelim l = some (d, rest) → l = d ++ rest := by
  intro l d rest h
  simp only [matchDelim, drop_takeWhile_length] at h
  split at h
  · exact absurd h (by simp)
  · split at h
    · rename_i heq
      injection h with h1
      injection h1 with hd hr
      subst hd
      subst hr
      conv_lhs => rw [← List.takeWhile_append_dropWhile (p := isPunctTerm) (l := l)]
      rw [heq, List.append_nil]
    · rename_i c rest' heq
      split at h
      · injection h with h1
        injection h1 with hd hr
        subst hd
        subst hr
        conv_lhs => rw [← List.takeWhile_append_dropWhile (p := isPunctTerm) (l := l)]
        rw [heq]
        simp
      · exact absurd h (by simp)

/-- Helper: the split preserves the input (fuel-independent). -/
theorem splitGo_flatten :
    ∀ (fuel : Nat) (l acc : Str), (splitGo fuel l acc).flatten = acc.reverse ++ l := by
  intro fuel
  induction fuel with
  | zero => intro l acc; simp [splitGo]
  | succ f ih =>
    intro l acc
    cases l with
    | nil => simp [splitGo]
    | cons c cs =>
      cases hm : matchDelim (c :: cs) with
      | some dr =>
        obtain ⟨d, rest⟩ := dr
        simp only [splitGo, hm, List.flatten_cons]
        rw [ih, List.reverse_nil, List.nil_append, ← matchDelim_append hm]
      | none =>
        simp only [splitGo, hm]
        rw [ih]
        simp [List.append_assoc]

/-- Helper: the parts of `splitParts` concatenate back to the input. -/
theorem splitParts_flatten (l : Str) : (splitParts l).flatten = l := by
  unfold splitParts
  rw [splitGo_flatten]
  rfl

/-- Claim C1 (amended): concatenating the text fields of the sentences
returned by `segmentParagraph`, in order, and disregarding all whitespace,
yields exactly `normalizeText T` with whitespace disregarded — no
non-whitespace character is lost or reordered by segmentation. -/
theorem claim_C1_wsReconstruction (T : Str) (pid : String) :
    dropWS (((segmentParagraph T pid).map (fun r => r.text)).flatten) =
      dropWS (normalizeText T) := by
  have hfold := segFold_dropWS pid (splitParts (normalizeText T)) ⟨[], 0, [], 0, 0⟩
  rw [splitParts_flatten] at hfold
  simp only [segAccText, List.map_nil, List.flatten_nil, List.append_nil,
    List.nil_append] at hfold
  rw [show dropWS [] = ([] : Str) from rfl, List.nil_append] at hfold
  simp only [segmentParagraph]
  split
  · rw [List.map_append, List.map_cons, List.map_nil, List.flatten_append,
      List.flatten_cons, List.flatten_nil, List.append_nil, dropWS_append,
      dropWS_trimStr, ← dropWS_append]
    exact hfold
  · rename_i hrem
    have hnil : trimStr (List.foldl (segStep pid) ⟨[], 0, [], 0, 0⟩
        (splitParts (normalizeText T))).sentenceBuffer = [] := by
      rcases Nat.eq_zero_or_pos (trimStr (List.foldl (segStep pid) ⟨[], 0, [], 0, 0⟩
          (splitParts (normalizeText T))).sentenceBuffer).length with hz | hp
      · exact List.length_eq_zero.mp hz
      · exact absurd hp hrem
    have hbuf := dropWS_of_trim_nil hnil
    rw [← hfold, dropWS_append, hbuf, List.append_nil]

/-- Helper: the character replacements fix their own image. -/
theorem normChar_idem (c : Char) : normChar (normChar c) = normChar c := by
  have key : normChar c = c ∨ normChar c = Char.ofNat 39 ∨ normChar c = '"' ∨
      normChar c = '-' := by
    unfold normChar
    repeat' split
    all_goals simp
  rcases key with h | h | h | h
  · rw [h]; exact h
  · rw [h]; decide
  · rw [h]; decide
  · rw [h]; decide

/-- Helper: characters of a collapsed string are single spaces or non-space
characters of the input. -/
theorem mem_collapseWS :
    ∀ (l : Str) (b : Bool) (c : Char), c ∈ collapseWS l b →
      c = ' ' ∨ (c ∈ l ∧ isJsSpace c = false) := by
  intro l
  induction l with
  | nil => intro b c h; simp [collapseWS] at h
  | cons x xs ih =>
    intro b c h
    by_cases hx : isJsSpace x
    · rw [collapseWS, if_pos hx, List.mem_append] at h
      rcases h with h | h
      · left
        cases b with
        | true => simp at h
        | false => simpa using h
      · rcases ih true c h with h | ⟨hm, hs⟩
        · exact Or.inl h
        · exact Or.inr ⟨List.mem_cons_of_mem x hm, hs⟩
    · rw [collapseWS, if_neg hx, List.mem_cons] at h
      rcases h with rfl | h
      · exact Or.inr ⟨List.mem_cons_self _ _, by simpa using hx⟩
      · rcases ih false c h with h | ⟨hm, hs⟩
        · exact Or.inl h
        · exact Or.inr ⟨List.mem_cons_of_mem x hm, hs⟩

/-- Helper: a collapse that starts in the "just saw whitespace" state never
begins with whitespace. -/
theorem collapseWS_true_head :
    ∀ (l : Str) (c : Char) (cs : Str),
      collapseWS l true = c :: cs → isJsSpace c = false := by
  intro l
  induction l with
  | nil => intro c cs h; simp [collapseWS] at h
  | cons x xs ih =>
    intro c cs h
    by_cases hx : isJsSpace x
    · rw [collapseWS, if_pos hx] at h
      exact ih c cs (by simpa using h)
    · rw [collapseWS, if_neg hx] at h
      cases h
      simpa using hx

/-- Helper: no whitespace character of a collapsed string is followed by
another whitespace character. -/
theorem collapseWS_chain :
    ∀ (l : Str) (b : Bool),
      (collapseWS l b).Chain' (fun a c => isJsSpace a = true → isJsSpace c = false) := by
  intro l
  induction l with
  | nil => intro b; simp [collapseWS]
  | cons x xs ih =>
    intro b
    by_cases hx : isJsSpace x
    · cases b with
      | true =>
        rw [collapseWS, if_pos hx]
        exact ih true
      | false =>
        rw [collapseWS, if_pos hx]
        show List.Chain' _ (' ' :: collapseWS xs true)
        rw [List.chain'_cons']
        refine ⟨?_, ih true⟩
        intro y hy _
        rcases hcc : collapseWS xs true with _ | ⟨y', t⟩
        · rw [hcc] at hy; simp at hy
        · rw [hcc] at hy
          simp only [List.head?_cons, Option.mem_def, Option.some_inj] at hy
          rw [← hy] at *
          exact collapseWS_true_head xs y' t hcc
    · rw [collapseWS, if_neg hx]
      rw [List.chain'_cons']
      refine ⟨?_, ih false⟩
      intro y _ hcontra
      rw [show isJsSpace x = false by simpa using hx] at hcontra
      cases hcontra

/-- Helper: when the head is non-space (or the list is empty), the collapse
flag does not matter. -/
theorem collapseWS_flag_eq (xs : Str)
    (h : ∀ y ∈ xs.head?, isJsSpace y = false) :
    collapseWS xs true = collapseWS xs false := by
  cases xs with
  | nil => rfl
  | cons y ys =>
    have hy : isJsSpace y = false := h y (by simp)
    rw [collapseWS, collapseWS, if_neg (by simp [hy]), if_neg (by simp [hy])]

/-- Helper: collapsing fixes a string whose whitespace is all single `' '`
characters with no two adjacent. -/
theorem collapseWS_eq_self :
    ∀ l : Str, (∀ c ∈ l, isJsSpace c = true → c = ' ') →
      l.Chain' (fun a c => isJsSpace a = true → isJsSpace c = false) →
      collapseWS l false = l := by
  intro l
  induction l with
  | nil => intro _ _; rfl
  | cons x xs ih =>
    intro hmem hchain
    have htail : xs.Chain' (fun a c => isJsSpace a = true → isJsSpace c = false) :=
      hchain.tail
    have hmem' : ∀ c ∈ xs, isJsSpace c = true → c = ' ' :=
      fun c hc => hmem c (List.mem_cons_of_mem x hc)
    by_cases hx : isJsSpace x
    · have hxsp : x = ' ' := hmem x (List.mem_cons_self _ _) (by simpa using hx)
      rw [collapseWS, if_pos hx]
      have hhead : ∀ y ∈ xs.head?, isJsSpace y = false := by
        intro y hy
        rw [List.chain'_cons'] at hchain
        exact hchain.1 y hy (by simpa using hx)
      rw [collapseWS_flag_eq xs hhead, ih hmem' htail]
      simp [hxsp]
    · rw [collapseWS, if_neg hx, ih hmem' htail]

/-- Helper: trimmed characters come from the original string. -/
theorem trimStr_subset {l : Str} : ∀ c ∈ trimStr l, c ∈ l := by
  intro c hc
  unfold trimStr trimLeft at hc
  rw [List.mem_reverse] at hc
  have h1 := (List.dropWhile_sublist (l := (l.dropWhile isJsSpace).reverse)
    isJsSpace).subset hc
  rw [List.mem_reverse] at h1
  exact (List.dropWhile_sublist isJsSpace).subset h1

/-- Helper: `dropWhile` preserves adjacency chains. -/
theorem chain'_dropWhile {R : Char → Char → Prop} {p : Char → Bool} :
    ∀ {l : Str}, l.Chain' R → (l.dropWhile p).Chain' R := by
  intro l
  induction l with
  | nil => intro h; simp
  | cons x xs ih =>
    intro h
    by_cases hx : p x
    · rw [List.dropWhile_cons_of_pos hx]
      exact ih h.tail
    · rw [List.dropWhile_cons_of_neg hx]
      exact h

/-- Helper: trimming preserves adjacency chains. -/
theorem chain'_trimStr {R : Char → Char → Prop} {l : Str} (h : l.Chain' R) :
    (trimStr l).Chain' R := by
  unfold trimStr trimLeft
  have h1 : (l.dropWhile isJsSpace).Chain' R := chain'_dropWhile h
  have h2 : ((l.dropWhile isJsSpace).reverse).Chain' (flip R) :=
    (List.chain'_reverse).mpr h1
  have h3 : (((l.dropWhile isJsSpace).reverse).dropWhile isJsSpace).Chain' (flip R) :=
    chain'_dropWhile h2
  exact (List.chain'_reverse).mpr h3

/-- Helper: any list splits as its right-trimmed part followed by its
trailing matched run. -/
theorem list_eq_rdrop_append (p : Char → Bool) (A : Str) :
    A = (A.reverse.dropWhile p).reverse ++ (A.reverse.takeWhile p).reverse := by
  conv_lhs => rw [← List.reverse_reverse A]
  conv_lhs => rw [← List.takeWhile_append_dropWhile (p := p) (l := A.reverse)]
  rw [List.reverse_append]

/-- Helper: trimming an already-trimmed string changes nothing. -/
theorem trimStr_idem (l : Str) : trimStr (trimStr l) = trimStr l := by
  have hstep1 : (trimStr l).dropWhile isJsSpace = trimStr l := by
    apply dropWhile_eq_self_of_head
    intro c cs hc
    have hAeq := list_eq_rdrop_append isJsSpace (l.dropWhile isJsSpace)
    rw [show ((l.dropWhile isJsSpace).reverse.dropWhile isJsSpace).reverse =
      c :: cs from hc] at hAeq
    rw [List.cons_append] at hAeq
    exact dropWhile_head_false hAeq
  have hstep2 : ((l.dropWhile isJsSpace).reverse.dropWhile isJsSpace).dropWhile
      isJsSpace = (l.dropWhile isJsSpace).reverse.dropWhile isJsSpace := by
    apply dropWhile_eq_self_of_head
    intro c cs hc
    exact dropWhile_head_false hc
  have hout : trimStr (trimStr l) =
      ((trimStr l).reverse.dropWhile isJsSpace).reverse := by
    show (((trimStr l).dropWhile isJsSpace).reverse.dropWhile isJsSpace).reverse = _
    rw [hstep1]
  rw [hout]
  have hrev : (trimStr l).reverse =
      (l.dropWhile isJsSpace).reverse.dropWhile isJsSpace := by
    show ((((l.dropWhile isJsSpace).reverse.dropWhile isJsSpace).reverse)).reverse = _
    rw [List.reverse_reverse]
  rw [hrev, hstep2]
  rfl

/-- Claim C10: `normalizeText` is idempotent, and therefore segmenting an
already-normalized paragraph yields the same records as segmenting the raw
text (the segmenter normalizes first). -/
theorem claim_C10_normalizeIdem (s : Str) :
    normalizeText (normalizeText s) = normalizeText s ∧
    ∀ pid, segmentParagraph (normalizeText s) pid = segmentParagraph s pid := by
  have hmain : normalizeText (normalizeText s) = normalizeText s := by
    have hmapfix : (normalizeText s).map normChar = normalizeText s := by
      have hfix : ∀ c ∈ normalizeText s, normChar c = c := by
        intro c hc
        have hy : c ∈ collapseWS (s.map normChar) false := trimStr_subset c hc
        rcases mem_collapseWS (s.map normChar) false c hy with rfl | ⟨hm, _⟩
        · decide
        · rcases List.mem_map.mp hm with ⟨d, _, rfl⟩
          exact normChar_idem d
      calc (normalizeText s).map normChar = (normalizeText s).map id :=
            List.map_congr_left hfix
        _ = normalizeText s := List.map_id _
    have hcoll : collapseWS (normalizeText s) false = normalizeText s := by
      apply collapseWS_eq_self
      · intro c hc hsp
        have hy : c ∈ collapseWS (s.map normChar) false := trimStr_subset c hc
        rcases mem_collapseWS (s.map normChar) false c hy with rfl | ⟨_, hns⟩
        · rfl
        · rw [hsp] at hns; cases hns
      · exact chain'_trimStr (collapseWS_chain (s.map normChar) false)
    show trimStr (collapseWS ((normalizeText s).map normChar) false) = normalizeText s
    rw [hmapfix, hcoll]
    exact trimStr_idem _
  refine ⟨hmain, fun pid => ?_⟩
  simp only [segmentParagraph, hmain]

/-- Helper: no delimiter match starts at a non-terminator character. -/
theorem matchDelim_none_of_head {c : Char} {rest : Str}
    (hc : isPunctTerm c = false) : matchDelim (c :: rest) = none := by
  simp [matchDelim, List.takeWhile_cons, hc]

/-- Helper: a part that starts with a non-terminator character fails the
delimiter test. -/
theorem isDelimiterPart_false_of_head {c : Char} {rest : Str}
    (hc : isPunctTerm c = false) : isDelimiterPart (c :: rest) = false := by
  simp [isDelimiterPart, List.takeWhile_cons, hc]

/-- Helper: the split scan walks over a terminator-free prefix, accumulating
it into the pending chunk. -/
theorem splitGo_skip :
    ∀ (plain : Str) (fuel : Nat) (rest acc : Str),
      (∀ c ∈ plain, isPunctTerm c = false) →
      splitGo (plain.length + fuel) (plain ++ rest) acc =
        splitGo fuel rest (plain.reverse ++ acc) := by
  intro plain
  induction plain with
  | nil => intro fuel rest acc _; simp
  | cons c cs ih =>
    intro fuel rest acc h
    have hc : isPunctTerm c = false := h c (List.mem_cons_self _ _)
    rw [show (c :: cs).length + fuel = (cs.length + fuel) + 1 from by
      simp [List.length_cons] <;> omega]
    rw [List.cons_append]
    have hstep : splitGo ((cs.length + fuel) + 1) (c :: (cs ++ rest)) acc =
        splitGo (cs.length + fuel) (cs ++ rest) (c :: acc) := by
      simp only [splitGo, matchDelim_none_of_head hc]
    rw [hstep, ih fuel rest (c :: acc) (fun d hd => h d (List.mem_cons_of_mem c hd))]
    simp [List.append_assoc]

/-- Helper: on a terminator-free remainder the split emits one final chunk. -/
theorem splitGo_plain_tail :
    ∀ (post : Str) (fuel : Nat) (acc : Str),
      (∀ c ∈ post, isPunctTerm c = false) → post.length ≤ fuel →
      splitGo fuel post acc = [acc.reverse ++ post] := by
  intro post
  induction post with
  | nil =>
    intro fuel acc _ _
    cases fuel <;> simp [splitGo]
  | cons c cs ih =>
    intro fuel acc h hlen
    cases fuel with
    | zero => simp at hlen
    | succ f =>
      have hc : isPunctTerm c = false := h c (List.mem_cons_self _ _)
      simp only [splitGo, matchDelim_none_of_head hc]
      rw [ih f (c :: acc) (fun d hd => h d (List.mem_cons_of_mem c hd))
        (by simp at hlen; omega)]
      simp [List.append_assoc]

/-- Helper: a paragraph made of a terminator-free prefix, a word, a period
plus space, and a terminator-free remainder splits into exactly the chunk
before the period, the ". " delimiter, and the remainder. -/
theorem splitParts_abbrev (pre w post : Str)
    (hprep : ∀ c ∈ pre, isPunctTerm c = false)
    (hwp : ∀ c ∈ w, isPunctTerm c = false)
    (hpostp : ∀ c ∈ post, isPunctTerm c = false) :
    splitParts (pre ++ (w ++ ('.' :: ' ' :: post))) =
      [pre ++ w, ['.', ' '], post] := by
  unfold splitParts
  rw [show (pre ++ (w ++ ('.' :: ' ' :: post))).length =
      pre.length + (w.length + ((post.length + 1) + 1)) from by
    simp [List.length_append] <;> omega]
  rw [splitGo_skip pre (w.length + ((post.length + 1) + 1))
    (w ++ ('.' :: ' ' :: post)) [] hprep]
  rw [splitGo_skip w ((post.length + 1) + 1) ('.' :: ' ' :: post)
    (pre.reverse ++ []) hwp]
  have hmd : matchDelim ('.' :: ' ' :: post) = some (['.', ' '], post) := by
    have h1 : isPunctTerm '.' = true := by decide
    have h2 : isPunctTerm ' ' = false := by decide
    have h3 : isTrailChar ' ' = true := by decide
    simp [matchDelim, List.takeWhile_cons, h1, h2, h3]
  simp only [splitGo, hmd]
  rw [splitGo_plain_tail post (post.length + 1) [] hpostp (by omega)]
  simp [List.reverse_append]

/-- Helper: a buffer ending (case-insensitively) in the given target passes
the suffix test. -/
theorem endsWithCI_of_ci {a b t : Str} (h : b.map lowerChar = t.map lowerChar) :
    endsWithCI t (a ++ b) = true := by
  have hlen : b.length = t.length := by
    have hh := congrArg List.length h
    simpa using hh
  simp only [endsWithCI, List.map_append, List.length_append, List.length_map]
  rw [if_pos (by omega)]
  rw [show a.length + b.length - t.length = a.length from by omega]
  rw [List.drop_left' (by simp), h]
  simp

/-- Helper: the abbreviation regexp accepts any buffer that ends with a
word-boundary, a word of the fixed set (case-insensitively), and a period. -/
theorem endsAbbrev_of_suffix (pre w : Str)
    (habbr : ∃ abbr ∈ ABBREVIATIONS, w.map lowerChar = abbr.map lowerChar)
    (hbound : pre.getLast? = none ∨
      ∃ c, pre.getLast? = some c ∧ isWordChar c = false) :
    endsAbbrev ((pre ++ w) ++ ['.']) = true := by
  obtain ⟨abbr, hmem, hci⟩ := habbr
  have hlen : w.length = abbr.length := by
    have hh := congrArg List.length hci
    simpa using hh
  rw [endsAbbrev, List.any_eq_true]
  refine ⟨abbr, hmem, ?_⟩
  rw [Bool.and_eq_true]
  constructor
  · rw [List.append_assoc]
    exact endsWithCI_of_ci (by rw [List.map_append, List.map_append, hci])
  · have htake : ((pre ++ w) ++ ['.']).take
        (((pre ++ w) ++ ['.']).length - (abbr ++ ['.']).length) = pre := by
      rw [show ((pre ++ w) ++ ['.']).length - (abbr ++ ['.']).length = pre.length
        from by simp [List.length_append] <;> omega]
      rw [List.append_assoc, List.take_left' rfl]
    rw [htake]
    rcases hbound with hb | ⟨c, hb, hcw⟩
    · rw [hb]
    · rw [hb]
      simp [hcw]

/-- Helper: a terminator-free non-empty part only extends the buffer. -/
theorem segStep_plain (pid : String) (st : SegState) (part : Str)
    (h : ∀ c ∈ part, isPunctTerm c = false) (hne : part ≠ []) :
    segStep pid st part =
      { st with sentenceBuffer := st.sentenceBuffer ++ part,
                currentPos := st.currentPos + part.length } := by
  obtain ⟨c, cs, rfl⟩ := List.exists_cons_of_ne_nil hne
  simp [segStep, isDelimiterPart_false_of_head (h c (List.mem_cons_self c cs))]

/-- Helper: at a ". " delimiter whose buffer ends in an abbreviation, the
step suppresses the boundary and keeps accumulating. -/
theorem segStep_abbrevDelim (pid : String) (st : SegState)
    (h : endsAbbrev (st.sentenceBuffer ++ ['.']) = true) :
    segStep pid st ['.', ' '] =
      { st with sentenceBuffer := st.sentenceBuffer ++ ['.'],
                currentPos := st.currentPos + 2 } := by
  have ht : trimStr ['.', ' '] = ['.'] := by decide
  have hd : isDelimiterPart ['.', ' '] = true := by decide
  simp [segStep, hd, ht, h]

/-- Claim C9: for every paragraph of the form `pre ++ w ++ ". " ++ post` —
`w` any word of the fixed abbreviation set matched case-insensitively (so in
particular the ordinary English words no, p, pp, ch, fig, May), `pre` ending
at a regexp word boundary, `pre`/`w`/`post` free of sentence terminators,
`post` non-empty (more text follows), and the paragraph stable under
normalization — `segmentParagraph` suppresses the sentence boundary at the
period after `w` and merges the following text into the same single sentence
record. -/
theorem claim_C9_abbrevSuppression (pre w post : Str) (pid : String)
    (habbr : ∃ abbr ∈ ABBREVIATIONS, w.map lowerChar = abbr.map lowerChar)
    (hwp : ∀ c ∈ w, isPunctTerm c = false)
    (hprep : ∀ c ∈ pre, isPunctTerm c = false)
    (hpostp : ∀ c ∈ post, isPunctTerm c = false)
    (hpostne : post ≠ [])
    (hbound : pre.getLast? = none ∨
      ∃ c, pre.getLast? = some c ∧ isWordChar c = false)
    (hnorm : normalizeText (pre ++ (w ++ ('.' :: ' ' :: post))) =
      pre ++ (w ++ ('.' :: ' ' :: post))) :
    segmentParagraph (pre ++ (w ++ ('.' :: ' ' :: post))) pid =
      [⟨mkSid pid 1, trimStr (((pre ++ w) ++ ['.']) ++ post), 0,
        (trimStr (((pre ++ w) ++ ['.']) ++ post)).length⟩] := by
  have hwne : w ≠ [] := by
    obtain ⟨abbr, hmem, hci⟩ := habbr
    have habne : ∀ a ∈ ABBREVIATIONS, a ≠ [] := by decide
    intro hw
    apply habne abbr hmem
    rw [hw] at hci
    have h := congrArg List.length hci
    simp at h
    exact List.length_eq_zero.mp h.symm
  have hpw : ∀ c ∈ pre ++ w, isPunctTerm c = false := by
    intro c hc
    rcases List.mem_append.mp hc with hc | hc
    · exact hprep c hc
    · exact hwp c hc
  have hpwne : pre ++ w ≠ [] := fun h0 => hwne (List.append_eq_nil.mp h0).2
  simp only [segmentParagraph]
  rw [hnorm, splitParts_abbrev pre w post hprep hwp hpostp]
  rw [List.foldl_cons, List.foldl_cons, List.foldl_cons, List.foldl_nil]
  rw [segStep_plain pid ⟨[], 0, [], 0, 0⟩ (pre ++ w) hpw hpwne]
  simp only [List.nil_append, Nat.zero_add]
  rw [segStep_abbrevDelim pid ⟨[], (pre ++ w).length, pre ++ w, 0, 0⟩
    (endsAbbrev_of_suffix pre w habbr hbound)]
  rw [segStep_plain pid ⟨[], (pre ++ w).length + 2, (pre ++ w) ++ ['.'], 0, 0⟩
    post hpostp hpostne]
  have hne2 : trimStr (((pre ++ w) ++ ['.']) ++ post) ≠ [] := by
    intro h0
    have hzero := dropWS_of_trim_nil h0
    have hdot : ('.' : Char) ∈ ((pre ++ w) ++ ['.']) ++ post := by simp
    have hmem : ('.' : Char) ∈ dropWS (((pre ++ w) ++ ['.']) ++ post) :=
      List.mem_filter.mpr ⟨hdot, by decide⟩
    rw [hzero] at hmem
    simp at hmem
  rw [if_pos (List.length_pos.mpr hne2)]
  simp

/-- Witness for C9: prefix "I looked at the ", the uppercase word "MAY"
(matched case-insensitively against the list entry "May"), and remainder
"It was there"; the paragraph segments into one merged record. -/
theorem claim_C9_witness :
    segmentParagraph ("I looked at the ".data ++ ("MAY".data ++
        ('.' :: ' ' :: "It was there".data))) "p" =
      [⟨mkSid "p" 1, trimStr ((("I looked at the ".data ++ "MAY".data) ++ ['.']) ++
          "It was there".data), 0,
        (trimStr ((("I looked at the ".data ++ "MAY".data) ++ ['.']) ++
          "It was there".data)).length⟩] :=
  claim_C9_abbrevSuppression "I looked at the ".data "MAY".data "It was there".data
    "p" (by decide) (by decide) (by decide) (by decide) (by decide) (by decide)
    (by decide)

end ClassicsRetold
